import Mathlib

/-!
# drugs-tracking-server: a shallow embedding of `main.go`

The file follows the Go source function by function.

* Go slices are Lean lists (a `nil` slice and an empty slice are both `[]`;
  they differ only in their JSON encoding, `null` against `[]`).
* Go strings are Lean strings; `strings.Split` and `strconv.Atoi` work on the
  list of characters (the separator `:` and the digits are ASCII).
* A Go `map[string][]drug` is an association list with pairwise distinct keys;
  the unspecified order of `range` over a map is a parameter (`MapOrder`).
* A `Clock` is one reading of `time.Now()` (`Clock.now`), with the instant
  built by `time.Date(y, m, d, hours, minutes, 0, 0, loc)` at that reading
  (`Clock.today hours minutes`). The fetch-due request reads the clock in its
  reset check and again, after the file is written and read, in its filter:
  `getDrugsHandler` takes the two readings.
* A call ends in a value, in an `error` value, or in a panic (`Outcome`).
* The settings file is the state (`Store`): `none` when it cannot be read or
  decoded, `some people` otherwise; writing the file succeeds, and what is
  written is what the next read decodes.
-/

namespace DrugsTracking

/-! ## Data model -/

/-- The `drug` struct. -/
structure drug where
  Name : String
  Time : String
  Comment : String
  Status : Bool
deriving DecidableEq, Repr

/-- The `person` struct. -/
structure person where
  PersonName : String
  Drugs : List drug
deriving DecidableEq, Repr

/-- Why a call panicked: `panic(err)` on an `Atoi` error, or the run-time
index check on `s[1]`. -/
inductive PanicCause where
  | atoi (input : String)
  | indexOutOfRange (index length : Nat)
deriving DecidableEq, Repr

/-- How a call ends: with a value, with a non-nil `error`, or with a panic. -/
inductive Outcome (α : Type) where
  | ok (a : α)
  | error (msg : String)
  | panic (cause : PanicCause)
deriving DecidableEq, Repr

/-- Sequencing of two calls: the second runs only when the first returned. -/
def Outcome.bind {α β : Type} (x : Outcome α) (f : α → Outcome β) : Outcome β :=
  match x with
  | .ok a => f a
  | .error msg => .error msg
  | .panic cause => .panic cause

/-- A `for ... range` loop whose body may panic, collecting the values. -/
def Outcome.mapM {α β : Type} (f : α → Outcome β) : List α → Outcome (List β)
  | [] => .ok []
  | a :: as => (f a).bind (fun b => (Outcome.mapM f as).bind (fun bs => .ok (b :: bs)))

/-! ## Time -/

/-- One reading of the clock. `now` is the instant `time.Now()` returns, in
nanoseconds since the Unix epoch; `today hours minutes` is the instant of
`time.Date(now.Year(), now.Month(), now.Day(), hours, minutes, 0, 0, loc)`
with `loc` the zone Europe/Moscow. -/
structure Clock where
  now : Int
  today : Int → Int → Int

/-- The calendar day, counted from the epoch, of the instant `unixSeconds` in
a zone `hostOffset` seconds east of UTC. -/
def calendarDay (unixSeconds hostOffset : Int) : Int := (unixSeconds + hostOffset) / 86400

/-- The clock at `unixSeconds` on a host whose local zone is `hostOffset`
seconds east of UTC. The calendar date is the local date of `now`; Moscow is
three hours east of UTC (no daylight saving since 2014), and `time.Date`
normalises hours and minutes outside their ranges by carrying over. -/
def Clock.ofUnix (unixSeconds hostOffset : Int) : Clock where
  now := unixSeconds * 1000000000
  today := fun hours minutes =>
    (calendarDay unixSeconds hostOffset * 86400 + hours * 3600 + minutes * 60 - 10800)
      * 1000000000

/-- The method `Time.Before`. -/
def Before (t u : Int) : Bool := decide (t < u)

/-- The method `Time.After`. -/
def After (t u : Int) : Bool := decide (t > u)

/-- The call `strings.Split(s, ":")` on the characters of `s`. -/
def splitColon : List Char → List (List Char)
  | [] => [[]]
  | c :: cs =>
    if c = ':' then [] :: splitColon cs
    else
      match splitColon cs with
      | [] => [[c]]
      | h :: t => (c :: h) :: t

/-- The value of a decimal digit. -/
def digitVal (c : Char) : Option Nat :=
  if '0' ≤ c ∧ c ≤ '9' then some (c.toNat - '0'.toNat) else none

/-- Accumulates decimal digits, failing on any other character. -/
def parseDigits (acc : Nat) : List Char → Option Nat
  | [] => some acc
  | c :: cs =>
    match digitVal c with
    | none => none
    | some d => parseDigits (acc * 10 + d) cs

/-- The call `strconv.Atoi` on a 64-bit platform: an optional sign, then at
least one decimal digit, the value within the range of `int`. `none` stands
for a non-nil error (syntax or range). -/
def Atoi (s : List Char) : Option Int :=
  match s with
  | [] => none
  | '-' :: ds =>
    if ds = [] then none
    else
      match parseDigits 0 ds with
      | none => none
      | some n => if n ≤ 2 ^ 63 then some (-(n : Int)) else none
  | '+' :: ds =>
    if ds = [] then none
    else
      match parseDigits 0 ds with
      | none => none
      | some n => if n < 2 ^ 63 then some (n : Int) else none
  | ds =>
    match parseDigits 0 ds with
    | none => none
    | some n => if n < 2 ^ 63 then some (n : Int) else none

/-- The function `convertStr2Time`: splits at the colons, converts the first
and the second component, panics when a conversion fails or when there is no
second component, and ignores every further component. -/
def convertStr2Time (clock : Clock) (timeStr : String) : Outcome Int :=
  let s := splitColon timeStr.data
  match Atoi (s.headD []) with
  | none => .panic (.atoi (String.mk (s.headD [])))
  | some hours =>
    match s.tail with
    | [] => .panic (.indexOutOfRange 1 s.length)
    | s1 :: _ =>
      match Atoi s1 with
      | none => .panic (.atoi (String.mk s1))
      | some minutes => .ok (clock.today hours minutes)

/-- The function `isBeforeCurrentTime`. -/
def isBeforeCurrentTime (clock : Clock) (scheduleTimeStr : String) : Outcome Bool :=
  (convertStr2Time clock scheduleTimeStr).bind (fun scheduleTime =>
    .ok (Before scheduleTime clock.now))

/-! ## The status mutator -/

/-- A Go `map[string][]drug`: the entries, with pairwise distinct keys. -/
abbrev GoMap := List (String × List drug)

/-- The expression `m[k]`: the value stored at `k`, the nil slice if there is none. -/
def mapGet : GoMap → String → List drug
  | [], _ => []
  | (k', v) :: m, k => if k' = k then v else mapGet m k

/-- The assignment `m[k] = v`: replaces the value at `k` or adds the entry. -/
def mapSet : GoMap → String → List drug → GoMap
  | [], k, v => [(k, v)]
  | (k', v') :: m, k, v => if k' = k then (k, v) :: m else (k', v') :: mapSet m k v

/-- One way of iterating over a map with `range`: Go leaves the order open, so
an order is any function that lists the entries of a map as a permutation. -/
structure MapOrder where
  iter : GoMap → GoMap
  perm : ∀ m, (iter m).Perm m

/-- Iteration in insertion order. -/
def MapOrder.insertion : MapOrder where
  iter := fun m => m
  perm := fun m => List.Perm.refl m

/-- Iteration in reverse insertion order. -/
def MapOrder.reversed : MapOrder where
  iter := fun m => m.reverse
  perm := fun m => List.reverse_perm m

/-- The function `changeStatusForDrug`: a copy of `drugs` with `Status` set on
every element whose name is `drugName`. -/
def changeStatusForDrug (drugs : List drug) (drugName : String) (status : Bool) : List drug :=
  drugs.map (fun d => if d.Name = drugName then { d with Status := status } else d)

/-- The map `changeStatus` builds before it ranges over it. -/
def changeStatusMap (people : List person) (personName drugName : String) (status : Bool) :
    GoMap :=
  let peopleMap := people.foldl (fun m p => mapSet m p.PersonName p.Drugs) []
  mapSet peopleMap personName (changeStatusForDrug (mapGet peopleMap personName) drugName status)

/-- The function `changeStatus`; `order` is the order in which `range` visits
the map. -/
def changeStatus (order : MapOrder) (people : List person) (personName drugName : String)
    (status : Bool) : Outcome (List person) :=
  .ok ((order.iter (changeStatusMap people personName drugName status)).map
    (fun kv => { PersonName := kv.1, Drugs := kv.2 }))

/-! ## The due-item filter -/

/-- The function `filterDrugs`. The time is converted for every element, before
its status is looked at. -/
def filterDrugs (clock : Clock) : List drug → Outcome (List drug)
  | [] => .ok []
  | d :: drugs =>
    (isBeforeCurrentTime clock d.Time).bind (fun before =>
      (filterDrugs clock drugs).bind (fun filteredDrugs =>
        .ok (if before && d.Status == false then d :: filteredDrugs else filteredDrugs)))

/-- The loop of `getPendingDrugs` over the loaded people. -/
def pendingOf (clock : Clock) : List person → Outcome (List person)
  | [] => .ok []
  | p :: people =>
    (filterDrugs clock p.Drugs).bind (fun drugs =>
      (pendingOf clock people).bind (fun pendingDrugs =>
        .ok (if drugs.length > 0 then
          { PersonName := p.PersonName, Drugs := drugs } :: pendingDrugs
        else pendingDrugs)))

/-! ## The store -/

/-- The settings file: `none` when it cannot be read or decoded. -/
abbrev Store := Option (List person)

/-- The function `loadDrugs`. -/
def loadDrugs (store : Store) : Outcome (List person) :=
  match store with
  | none => .error "load"
  | some people => .ok people

/-- The function `saveDrugs`: the file holds `people` afterwards. -/
def saveDrugs (people : List person) : Store := some people

/-- The function `getPendingDrugs`. -/
def getPendingDrugs (clock : Clock) (store : Store) : Outcome (List person) :=
  (loadDrugs store).bind (fun people => pendingOf clock people)

/-! ## The daily reset -/

/-- The call `sort.SliceStable(times, less)`: a stable sort by `less`; an
element is put in front of the first element that is not less than it. -/
def sortSliceStable (less : Int → Int → Bool) (times : List Int) : List Int :=
  times.insertionSort (fun a b => less b a = false)

/-- The nested loops of `isResetPendingStatus`: the time of every drug of
every person, in order. -/
def collectTimes (clock : Clock) (people : List person) : Outcome (List Int) :=
  (Outcome.mapM (fun p => Outcome.mapM (fun d => convertStr2Time clock d.Time) p.Drugs)
    people).bind (fun tss => .ok tss.flatten)

/-- The function `isResetPendingStatus`. -/
def isResetPendingStatus (clock : Clock) (people : List person) : Outcome Bool :=
  (collectTimes clock people).bind (fun times =>
    let sorted := sortSliceStable Before times
    .ok (decide (sorted.length > 0) && After (sorted.headD 0) clock.now))

/-- The pairs (person name, drug name) the loops of `resetPendingStatus` visit. -/
def resetCalls (people : List person) : List (String × String) :=
  people.flatMap (fun p => p.Drugs.map (fun d => (p.PersonName, d.Name)))

/-- The loops of `resetPendingStatus`. `updatedPeople` is `none` for the nil
slice; call number `k` ranges over its map in the order `orders k`. -/
def resetLoop (orders : Nat → MapOrder) (people : List person) :
    List (String × String) → Nat → Option (List person) → Outcome (Option (List person))
  | [], _, updatedPeople => .ok updatedPeople
  | (personName, drugName) :: calls, k, updatedPeople =>
    (match updatedPeople with
      | none => changeStatus (orders k) people personName drugName false
      | some updated => changeStatus (orders k) updated personName drugName false).bind
      (fun updated => resetLoop orders people calls (k + 1) (some updated))

/-- The function `resetPendingStatus`: the store it leaves behind. -/
def resetPendingStatus (orders : Nat → MapOrder) (people : List person) (store : Store) :
    Outcome Store :=
  (resetLoop orders people (resetCalls people) 0 none).bind (fun updatedPeople =>
    match updatedPeople with
    | some updated => .ok (saveDrugs updated)
    | none => .ok store)

/-- The function `checkAndResetPendingStatus`: the store it leaves behind. -/
def checkAndResetPendingStatus (orders : Nat → MapOrder) (clock : Clock) (store : Store) :
    Outcome Store :=
  (loadDrugs store).bind (fun people =>
    (isResetPendingStatus clock people).bind (fun reset =>
      if reset then resetPendingStatus orders people store else .ok store))

/-! ## The handlers -/

/-- The function `getDrugsHandler`: what the request ends in (the people of
the response body, the error of a 500 response, or a panic) and the store
afterwards. `checkClock` is the clock as `checkAndResetPendingStatus` reads
it, `pendingClock` the clock as `getPendingDrugs` reads it afterwards. -/
def getDrugsHandler (orders : Nat → MapOrder) (checkClock pendingClock : Clock)
    (store : Store) : Outcome (List person) × Store :=
  match checkAndResetPendingStatus orders checkClock store with
  | .ok store' => (getPendingDrugs pendingClock store', store')
  | .error msg => (.error msg, store)
  | .panic cause => (.panic cause, store)

/-- The function `changeDrugStatusHandler`. -/
def changeDrugStatusHandler (order : MapOrder) (personName drugName : String) (store : Store) :
    Outcome Unit × Store :=
  match loadDrugs store with
  | .ok people =>
    match changeStatus order people personName drugName true with
    | .ok updatedPople => (.ok (), saveDrugs updatedPople)
    | .error msg => (.error msg, store)
    | .panic cause => (.panic cause, store)
  | .error msg => (.error msg, store)
  | .panic cause => (.panic cause, store)

/-! ## Specification-side definitions and concrete inputs -/

/-- A time string the conversion accepts: at least two components between
colons, the first two of them integers. -/
def timeParses (timeStr : String) : Bool :=
  match splitColon timeStr.data with
  | h :: m :: _ => (Atoi h).isSome && (Atoi m).isSome
  | _ => false

/-- Every time string of the document is accepted by the conversion. -/
def allParse (people : List person) : Prop :=
  ∀ p ∈ people, ∀ d ∈ p.Drugs, timeParses d.Time = true

/-- Every time string of the document has a second component. -/
def allHaveColon (people : List person) : Prop :=
  ∀ p ∈ people, ∀ d ∈ p.Drugs, 2 ≤ (splitColon d.Time.data).length

/-- A valid "HH:MM" in the words of the specification: exactly two integers
between colons, the hour in 0..23 and the minute in 0..59. -/
def validHHMM (timeStr : String) : Bool :=
  match splitColon timeStr.data with
  | [h, m] =>
    match Atoi h, Atoi m with
    | some hours, some minutes =>
      decide (0 ≤ hours ∧ hours ≤ 23 ∧ 0 ≤ minutes ∧ minutes ≤ 59)
    | _, _ => false
  | _ => false

/-- The order that visits every map in insertion order, at every call. -/
def insertionOrders : Nat → MapOrder := fun _ => MapOrder.insertion

/-- The clock on 2024-01-01 at 09:00 in Moscow, on a host in the Moscow zone. -/
def clockNine : Clock := Clock.ofUnix 1704088800 10800

/-- The document of the scenario: Alice takes a vitamin at 08:00. -/
def aliceDoc : List person := [⟨"Alice", [⟨"Vitamin", "08:00", "", false⟩]⟩]

/-- Alice with a time string that has no colon. -/
def noColonDoc : List person := [⟨"Alice", [⟨"Vitamin", "8", "", false⟩]⟩]

/-- Alice with a time string whose components are not integers. -/
def lettersDoc : List person := [⟨"Alice", [⟨"Vitamin", "ab:cd", "", false⟩]⟩]

/-- Alice with the vitamin marked completed. -/
def aliceDone : List person := [⟨"Alice", [⟨"Vitamin", "08:00", "", true⟩]⟩]

/-- The clock on 2024-01-01 at 06:00 in Moscow, on a host in the Moscow zone. -/
def clockSix : Clock := Clock.ofUnix 1704078000 10800

/-- The clock on 2024-01-01 at 07:59:59 in Moscow, on a host in the Moscow zone. -/
def clockBeforeEight : Clock := Clock.ofUnix 1704085199 10800

/-- The clock on 2024-01-01 at 08:00:01 in Moscow, on a host in the Moscow zone. -/
def clockAfterEight : Clock := Clock.ofUnix 1704085201 10800

/-- The clock on 2024-01-01 at 07:00 in Moscow, on a host in the Moscow zone. -/
def clockSeven : Clock := Clock.ofUnix 1704081600 10800

/-- The scheduled instant of today of a time string, when it is accepted. -/
def scheduledToday (clock : Clock) (timeStr : String) : Option Int :=
  match convertStr2Time clock timeStr with
  | .ok t => some t
  | _ => none

/-- Due, in the words of the specification: the scheduled time of today is
strictly before now and the item is not completed. -/
def isDue (clock : Clock) (d : drug) : Bool :=
  match scheduledToday clock d.Time with
  | some t => decide (t < clock.now) && !d.Status
  | none => false

/-- The stable filter of the specification: the people in input order, each
with the due items in input order, without the people left with no item. -/
def stableFilter (clock : Clock) (people : List person) : List person :=
  (people.map (fun p => { p with Drugs := p.Drugs.filter (isDue clock) })).filter
    (fun p => !p.Drugs.isEmpty)

/-- The items of the last person of the document with the given name, no
items when there is none. -/
def lastDrugs (people : List person) (name : String) : List drug :=
  match (people.filter (fun q => q.PersonName = name)).getLast? with
  | some q => q.Drugs
  | none => []

/-- The names of the people of a document. -/
def names (people : List person) : List String := people.map (fun q => q.PersonName)

/-- The scheduled instants of today of all items of all people. -/
def allTimes (clock : Clock) (people : List person) : List Int :=
  people.flatMap (fun p => p.Drugs.filterMap (fun d => scheduledToday clock d.Time))

/-- The minimum of a list of instants, none for the empty list. -/
def leastOf : List Int → Option Int
  | [] => none
  | t :: ts => some (ts.foldl min t)

/-- A person with every item marked not completed. -/
def clearPerson (p : person) : person :=
  { p with Drugs := p.Drugs.map (fun d => { d with Status := false }) }

/-- The reset condition in the words of the specification: there is an item,
and the minimum of the scheduled instants of today is strictly after now. -/
def resetDue (clock : Clock) (people : List person) : Bool :=
  match leastOf (allTimes clock people) with
  | none => false
  | some m => decide (clock.now < m)

/-- The items under every name after one call of the reset loop, from the
items under every name before it. -/
def applyCall (view : String → List drug) (call : String × String) : String → List drug :=
  fun n => if n = call.1 then changeStatusForDrug (view call.1) call.2 false else view n

/-! ## Time conversion -/

theorem Outcome.bind_ok {α β : Type} (a : α) (f : α → Outcome β) :
    (Outcome.ok a).bind f = f a := rfl

theorem Outcome.bind_panic {α β : Type} (c : PanicCause) (f : α → Outcome β) :
    (Outcome.panic c : Outcome α).bind f = .panic c := rfl

theorem Outcome.bind_error {α β : Type} (e : String) (f : α → Outcome β) :
    (Outcome.error e : Outcome α).bind f = .error e := rfl

theorem splitColon_ne_nil (cs : List Char) : splitColon cs ≠ [] := by
  cases cs with
  | nil => simp [splitColon]
  | cons c cs =>
    simp only [splitColon]
    split
    · simp
    · split <;> simp

/-- The conversion unfolded over the shape of the split string. -/
theorem convertStr2Time_cases (clock : Clock) (timeStr : String) :
    (∃ h m rest hours minutes, splitColon timeStr.data = h :: m :: rest ∧
        Atoi h = some hours ∧ Atoi m = some minutes ∧
        convertStr2Time clock timeStr = .ok (clock.today hours minutes)) ∨
    (∃ h m rest, splitColon timeStr.data = h :: m :: rest ∧
        (Atoi h = none ∨ Atoi m = none) ∧
        ∃ bad, convertStr2Time clock timeStr = .panic (.atoi bad)) ∨
    (∃ h, splitColon timeStr.data = [h] ∧
        ∃ cause, convertStr2Time clock timeStr = .panic cause) := by
  unfold convertStr2Time
  rcases hs : splitColon timeStr.data with _ | ⟨h, _ | ⟨m, rest⟩⟩
  · exact absurd hs (splitColon_ne_nil _)
  · right; right
    refine ⟨h, rfl, ?_⟩
    simp only [List.headD_cons, List.tail_cons]
    cases Atoi h <;> simp
  · simp only [List.headD_cons, List.tail_cons]
    cases hh : Atoi h with
    | none =>
      right; left
      exact ⟨h, m, rest, rfl, Or.inl hh, _, rfl⟩
    | some hours =>
      cases hm : Atoi m with
      | none =>
        right; left
        exact ⟨h, m, rest, rfl, Or.inr hm, _, rfl⟩
      | some minutes =>
        left
        exact ⟨h, m, rest, hours, minutes, rfl, hh, hm, rfl⟩

theorem convertStr2Time_ok_iff (clock : Clock) (timeStr : String) :
    (∃ t, convertStr2Time clock timeStr = .ok t) ↔ timeParses timeStr = true := by
  unfold timeParses
  rcases convertStr2Time_cases clock timeStr with
    ⟨h, m, rest, hours, minutes, hs, hh, hm, hc⟩ | ⟨h, m, rest, hs, hbad, bad, hc⟩ |
    ⟨h, hs, cause, hc⟩
  · simp [hs, hh, hm, hc]
  · rw [hs, hc]
    rcases hbad with hb | hb <;> simp [hb]
  · simp [hs, hc]

theorem convertStr2Time_panic_of_not_parses (clock : Clock) (timeStr : String)
    (h : timeParses timeStr = false) : ∃ cause, convertStr2Time clock timeStr = .panic cause := by
  rcases convertStr2Time_cases clock timeStr with
    ⟨h', m, rest, hours, minutes, hs, hh, hm, hc⟩ | ⟨h', m, rest, hs, hbad, bad, hc⟩ |
    ⟨h', hs, cause, hc⟩
  · simp [timeParses, hs, hh, hm] at h
  · exact ⟨_, hc⟩
  · exact ⟨_, hc⟩

/-! ## The due-item filter -/

theorem scheduledToday_of_parses (clock : Clock) (timeStr : String)
    (h : timeParses timeStr = true) :
    ∃ t, convertStr2Time clock timeStr = .ok t ∧ scheduledToday clock timeStr = some t := by
  obtain ⟨t, ht⟩ := (convertStr2Time_ok_iff clock timeStr).2 h
  exact ⟨t, ht, by simp [scheduledToday, ht]⟩

theorem filterDrugs_ok (clock : Clock) (drugs : List drug)
    (h : ∀ d ∈ drugs, timeParses d.Time = true) :
    filterDrugs clock drugs = .ok (drugs.filter (isDue clock)) := by
  induction drugs with
  | nil => rfl
  | cons d ds ih =>
    obtain ⟨t, ht, hs⟩ := scheduledToday_of_parses clock d.Time (h d (List.mem_cons_self _ _))
    have ih' := ih (fun e he => h e (List.mem_cons_of_mem _ he))
    simp only [filterDrugs, isBeforeCurrentTime, ht, ih', Outcome.bind_ok, List.filter_cons,
      isDue, hs, Before]
    cases d.Status <;> simp

theorem pendingOf_ok (clock : Clock) (people : List person) (h : allParse people) :
    pendingOf clock people = .ok (stableFilter clock people) := by
  induction people with
  | nil => rfl
  | cons p ps ih =>
    have hp := filterDrugs_ok clock p.Drugs (h p (List.mem_cons_self _ _))
    have ih' := ih (fun q hq => h q (List.mem_cons_of_mem _ hq))
    simp only [pendingOf, hp, ih', Outcome.bind_ok, stableFilter, List.map_cons,
      List.filter_cons]
    cases hf : p.Drugs.filter (isDue clock) <;> simp [stableFilter]

/-! ## Maps -/

theorem mapSet_keys (m : GoMap) (k : String) (v : List drug) :
    (mapSet m k v).map Prod.fst =
      if k ∈ m.map Prod.fst then m.map Prod.fst else m.map Prod.fst ++ [k] := by
  induction m with
  | nil => simp [mapSet]
  | cons e m ih =>
    obtain ⟨k', v'⟩ := e
    by_cases hk : k' = k
    · simp [mapSet, hk]
    · have hk' : ¬ k = k' := fun h => hk h.symm
      simp only [mapSet, hk, if_false, List.map_cons, ih, List.mem_cons, hk', false_or]
      split <;> simp

theorem mem_mapSet_keys (m : GoMap) (k : String) (v : List drug) (n : String) :
    n ∈ (mapSet m k v).map Prod.fst ↔ n = k ∨ n ∈ m.map Prod.fst := by
  rw [mapSet_keys]
  split
  · constructor
    · exact Or.inr
    · rintro (rfl | h)
      · assumption
      · exact h
  · simp [or_comm]

theorem mapSet_nodup (m : GoMap) (k : String) (v : List drug)
    (h : (m.map Prod.fst).Nodup) : ((mapSet m k v).map Prod.fst).Nodup := by
  rw [mapSet_keys]
  split
  · exact h
  · rename_i hk
    exact List.Nodup.append h (List.nodup_singleton k) (by simpa using hk)

theorem mapGet_mapSet (m : GoMap) (k : String) (v : List drug) (n : String) :
    mapGet (mapSet m k v) n = if n = k then v else mapGet m n := by
  induction m with
  | nil =>
    by_cases h : k = n
    · simp [mapSet, mapGet, h]
    · have h' : ¬ n = k := fun e => h e.symm
      simp [mapSet, mapGet, h, h']
  | cons e m ih =>
    obtain ⟨k', v'⟩ := e
    by_cases hk : k' = k
    · subst hk
      by_cases hn : k' = n
      · simp [mapSet, mapGet, hn]
      · have hn' : ¬ n = k' := fun e => hn e.symm
        simp [mapSet, mapGet, hn, hn']
    · by_cases hn : k' = n
      · subst hn
        simp [mapSet, mapGet, hk]
      · simp [mapSet, mapGet, hk, hn, ih]

theorem mapGet_of_not_mem (m : GoMap) (n : String) (h : n ∉ m.map Prod.fst) :
    mapGet m n = [] := by
  induction m with
  | nil => rfl
  | cons e m ih =>
    obtain ⟨k', v'⟩ := e
    simp only [List.map_cons, List.mem_cons, not_or] at h
    have hk : ¬ k' = n := fun e => h.1 e.symm
    simp [mapGet, hk, ih h.2]

theorem mapGet_of_mem (m : GoMap) (n : String) (v : List drug)
    (hnd : (m.map Prod.fst).Nodup) (h : (n, v) ∈ m) : mapGet m n = v := by
  induction m with
  | nil => cases h
  | cons e m ih =>
    obtain ⟨k', v'⟩ := e
    simp only [List.map_cons, List.nodup_cons] at hnd
    rcases List.mem_cons.1 h with heq | hmem
    · cases heq
      simp [mapGet]
    · have hk : ¬ k' = n := by
        intro e
        subst e
        exact hnd.1 (List.mem_map.2 ⟨(k', v), hmem, rfl⟩)
      simp [mapGet, hk, ih hnd.2 hmem]

/-- The map the first loop of `changeStatus` builds. -/
theorem foldl_mapSet_spec (people : List person) :
    ((people.foldl (fun m p => mapSet m p.PersonName p.Drugs) []).map Prod.fst).Nodup ∧
    (∀ n, n ∈ (people.foldl (fun m p => mapSet m p.PersonName p.Drugs) []).map Prod.fst ↔
      n ∈ names people) ∧
    (∀ n, mapGet (people.foldl (fun m p => mapSet m p.PersonName p.Drugs) []) n =
      lastDrugs people n) := by
  induction people using List.reverseRecOn with
  | nil => exact ⟨by simp, by simp [names], fun n => by simp [mapGet, lastDrugs]⟩
  | append_singleton init q ih =>
    obtain ⟨h1, h2, h3⟩ := ih
    rw [List.foldl_append]
    simp only [List.foldl_cons, List.foldl_nil]
    refine ⟨mapSet_nodup _ _ _ h1, ?_, ?_⟩
    · intro n
      rw [mem_mapSet_keys, h2]
      simp [names, or_comm]
    · intro n
      rw [mapGet_mapSet, h3]
      by_cases hn : n = q.PersonName
      · subst hn
        simp [lastDrugs, List.filter_append]
      · have hn' : ¬ q.PersonName = n := fun e => hn e.symm
        simp [lastDrugs, List.filter_append, hn, hn']

/-! ## Documents with pairwise distinct names -/

theorem filter_name_of_mem (l : List person) (q : person) (hnd : (names l).Nodup)
    (hq : q ∈ l) : l.filter (fun x => x.PersonName = q.PersonName) = [q] := by
  induction l with
  | nil => cases hq
  | cons a l ih =>
    simp only [names, List.map_cons, List.nodup_cons] at hnd
    rcases List.mem_cons.1 hq with heq | hmem
    · subst heq
      have : l.filter (fun x => x.PersonName = q.PersonName) = [] := by
        rw [List.filter_eq_nil_iff]
        intro x hx hxe
        simp only [decide_eq_true_eq] at hxe
        exact hnd.1 (List.mem_map.2 ⟨x, hx, hxe⟩)
      simp [List.filter_cons, this]
    · have hne : ¬ a.PersonName = q.PersonName := by
        intro e
        exact hnd.1 (List.mem_map.2 ⟨q, hmem, e.symm⟩)
      simp only [List.filter_cons, hne, decide_False, Bool.false_eq_true, if_false]
      exact ih hnd.2 hmem

theorem lastDrugs_of_mem (l : List person) (q : person) (hnd : (names l).Nodup)
    (hq : q ∈ l) : lastDrugs l q.PersonName = q.Drugs := by
  simp [lastDrugs, filter_name_of_mem l q hnd hq]

theorem lastDrugs_of_not_mem (l : List person) (n : String) (h : n ∉ names l) :
    lastDrugs l n = [] := by
  have : l.filter (fun x => x.PersonName = n) = [] := by
    rw [List.filter_eq_nil_iff]
    intro x hx hxe
    simp only [decide_eq_true_eq] at hxe
    exact h (List.mem_map.2 ⟨x, hx, hxe⟩)
  simp [lastDrugs, this]

/-- The items of `lastDrugs` are the items of a person of the document. -/
theorem lastDrugs_mem (l : List person) (n : String) (hn : n ∈ names l) :
    ∃ q ∈ l, q.PersonName = n ∧ lastDrugs l n = q.Drugs := by
  obtain ⟨q0, hq0, hq0n⟩ := List.mem_map.1 hn
  have hne : l.filter (fun x => x.PersonName = n) ≠ [] := by
    intro h
    rw [List.filter_eq_nil_iff] at h
    exact h q0 hq0 (by simpa using hq0n)
  cases hl : (l.filter (fun x => x.PersonName = n)).getLast? with
  | none => exact absurd (List.getLast?_eq_none_iff.1 hl) hne
  | some q =>
    have hq := List.mem_of_getLast?_eq_some hl
    rw [List.mem_filter] at hq
    exact ⟨q, hq.1, by simpa using hq.2, by simp [lastDrugs, hl]⟩

/-- What `changeStatus` returns, whatever the order of the map: the names are
pairwise distinct, they are the names of the document and `personName`, and
each name holds the items of its last person, changed for `personName`. -/
theorem changeStatus_spec (order : MapOrder) (people : List person)
    (personName drugName : String) (status : Bool) :
    ∃ out, changeStatus order people personName drugName status = .ok out ∧
      (names out).Nodup ∧
      (∀ n, n ∈ names out ↔ n = personName ∨ n ∈ names people) ∧
      (∀ n, lastDrugs out n =
        if n = personName then changeStatusForDrug (lastDrugs people personName) drugName status
        else lastDrugs people n) := by
  obtain ⟨h1, h2, h3⟩ := foldl_mapSet_spec people
  refine ⟨_, rfl, ?_, ?_, ?_⟩
  all_goals
    have hperm := order.perm (changeStatusMap people personName drugName status)
    have hnames : names ((order.iter (changeStatusMap people personName drugName status)).map
        (fun kv => ({ PersonName := kv.1, Drugs := kv.2 } : person))) =
        (order.iter (changeStatusMap people personName drugName status)).map Prod.fst := by
      simp [names, List.map_map, Function.comp_def]
    have hnd : ((changeStatusMap people personName drugName status).map Prod.fst).Nodup :=
      mapSet_nodup _ _ _ h1
    have hnd' : ((order.iter (changeStatusMap people personName drugName status)).map
        Prod.fst).Nodup := ((hperm.map Prod.fst).nodup_iff).2 hnd
  · rw [hnames]
    exact hnd'
  · intro n
    rw [hnames, (hperm.map Prod.fst).mem_iff]
    unfold changeStatusMap
    rw [mem_mapSet_keys, h2]
  · intro n
    have hget : mapGet (changeStatusMap people personName drugName status) n =
        if n = personName then
          changeStatusForDrug (lastDrugs people personName) drugName status
        else lastDrugs people n := by
      unfold changeStatusMap
      simp only [mapGet_mapSet, h3]
    rw [← hget]
    by_cases hn : n ∈ (changeStatusMap people personName drugName status).map Prod.fst
    · obtain ⟨⟨k, v⟩, hkv, hk⟩ := List.mem_map.1 hn
      simp only at hk
      subst hk
      rw [mapGet_of_mem _ _ _ hnd hkv]
      have hmem : ({ PersonName := k, Drugs := v } : person) ∈
          (order.iter (changeStatusMap people personName drugName status)).map
            (fun kv => ({ PersonName := kv.1, Drugs := kv.2 } : person)) :=
        List.mem_map.2 ⟨(k, v), hperm.mem_iff.2 hkv, rfl⟩
      exact lastDrugs_of_mem _ _ (hnames ▸ hnd') hmem
    · rw [mapGet_of_not_mem _ _ hn]
      apply lastDrugs_of_not_mem
      rw [hnames, (hperm.map Prod.fst).mem_iff]
      exact hn

theorem mem_iff_lastDrugs (l : List person) (q : person) (hnd : (names l).Nodup) :
    q ∈ l ↔ q.PersonName ∈ names l ∧ lastDrugs l q.PersonName = q.Drugs := by
  constructor
  · intro hq
    exact ⟨List.mem_map.2 ⟨q, hq, rfl⟩, lastDrugs_of_mem l q hnd hq⟩
  · rintro ⟨hn, hd⟩
    obtain ⟨q', hq', hq'n⟩ := List.mem_map.1 hn
    have h := lastDrugs_of_mem l q' hnd hq'
    rw [hq'n, hd] at h
    have : q' = q := by
      cases q'; cases q
      simp only at hq'n h
      simp [hq'n, h]
    exact this ▸ hq'

/-- Two documents with pairwise distinct names, the same names and the same
items under every name hold the same people, up to their order. -/
theorem perm_of_lastDrugs (a b : List person) (ha : (names a).Nodup) (hb : (names b).Nodup)
    (hn : ∀ n, n ∈ names a ↔ n ∈ names b) (hd : ∀ n, lastDrugs a n = lastDrugs b n) :
    a.Perm b := by
  rw [List.perm_ext_iff_of_nodup (List.Nodup.of_map _ ha) (List.Nodup.of_map _ hb)]
  intro q
  rw [mem_iff_lastDrugs a q ha, mem_iff_lastDrugs b q hb, hn, hd]

theorem names_append (a b : List person) : names (a ++ b) = names a ++ names b := by
  simp [names]

theorem lastDrugs_append_singleton (l : List person) (q : person) (n : String) :
    lastDrugs (l ++ [q]) n = if n = q.PersonName then q.Drugs else lastDrugs l n := by
  by_cases hn : n = q.PersonName
  · subst hn
    simp [lastDrugs, List.filter_append]
  · have hn' : ¬ q.PersonName = n := fun e => hn e.symm
    simp [lastDrugs, List.filter_append, hn, hn']

theorem names_map_clearPerson (l : List person) : names (l.map clearPerson) = names l := by
  simp [names, List.map_map, Function.comp_def, clearPerson]

theorem lastDrugs_map_clearPerson (l : List person) (n : String) :
    lastDrugs (l.map clearPerson) n =
      (lastDrugs l n).map (fun d => { d with Status := false }) := by
  induction l using List.reverseRecOn with
  | nil => simp [lastDrugs]
  | append_singleton init q ih =>
    rw [List.map_append, List.map_singleton, lastDrugs_append_singleton,
      lastDrugs_append_singleton, ih]
    by_cases hn : n = q.PersonName
    · simp [hn, clearPerson]
    · simp [hn, clearPerson]

/-! ## Panics of the loops -/

theorem filterDrugs_panic (clock : Clock) (drugs : List drug)
    (h : ∃ d ∈ drugs, timeParses d.Time = false) :
    ∃ cause, filterDrugs clock drugs = .panic cause := by
  induction drugs with
  | nil =>
    obtain ⟨d, hd, _⟩ := h
    cases hd
  | cons d ds ih =>
    cases hp : timeParses d.Time with
    | false =>
      obtain ⟨c, hc⟩ := convertStr2Time_panic_of_not_parses clock d.Time hp
      exact ⟨c, by simp [filterDrugs, isBeforeCurrentTime, hc, Outcome.bind]⟩
    | true =>
      obtain ⟨t, ht, _⟩ := scheduledToday_of_parses clock d.Time hp
      obtain ⟨e, he, hef⟩ := h
      rcases List.mem_cons.1 he with rfl | hmem
      · rw [hp] at hef
        cases hef
      · obtain ⟨c, hc⟩ := ih ⟨e, hmem, hef⟩
        exact ⟨c, by simp [filterDrugs, isBeforeCurrentTime, ht, hc, Outcome.bind]⟩

theorem pendingOf_panic (clock : Clock) (people : List person) (h : ¬ allParse people) :
    ∃ cause, pendingOf clock people = .panic cause := by
  induction people with
  | nil => exact absurd (fun p hp => by cases hp) h
  | cons p ps ih =>
    by_cases hp : ∀ d ∈ p.Drugs, timeParses d.Time = true
    · have hps : ¬ allParse ps := by
        intro hall
        apply h
        intro q hq
        rcases List.mem_cons.1 hq with rfl | hmem
        · exact hp
        · exact hall q hmem
      obtain ⟨c, hc⟩ := ih hps
      exact ⟨c, by simp [pendingOf, filterDrugs_ok clock p.Drugs hp, hc, Outcome.bind]⟩
    · have : ∃ d ∈ p.Drugs, timeParses d.Time = false := by
        by_contra hcon
        apply hp
        intro d hd
        cases hdp : timeParses d.Time with
        | true => rfl
        | false => exact absurd ⟨d, hd, hdp⟩ hcon
      obtain ⟨c, hc⟩ := filterDrugs_panic clock p.Drugs this
      exact ⟨c, by simp [pendingOf, hc, Outcome.bind]⟩

theorem allParse_of_pendingOf_ok (clock : Clock) (people due : List person)
    (h : pendingOf clock people = .ok due) : allParse people := by
  by_contra hcon
  obtain ⟨c, hc⟩ := pendingOf_panic clock people hcon
  rw [hc] at h
  cases h

theorem mem_stableFilter (clock : Clock) (people : List person) (q : person)
    (hq : q ∈ stableFilter clock people) :
    ∃ p ∈ people, p.PersonName = q.PersonName ∧
      ∀ d ∈ q.Drugs, d ∈ p.Drugs ∧ isDue clock d = true := by
  simp only [stableFilter, List.mem_filter, List.mem_map] at hq
  obtain ⟨⟨p, hp, rfl⟩, _⟩ := hq
  refine ⟨p, hp, rfl, ?_⟩
  intro d hd
  simpa [List.mem_filter] using hd

theorem isDue_status (clock : Clock) (d : drug) (h : isDue clock d = true) :
    d.Status = false := by
  unfold isDue at h
  split at h
  · cases hs : d.Status <;> simp [hs] at h ⊢
  · cases h

/-! ## The due-item filter: claims -/

theorem allParse_aliceDoc : allParse aliceDoc := by
  intro p hp d hd
  simp only [aliceDoc, List.mem_singleton] at hp
  subst hp
  simp only [List.mem_singleton] at hd
  subst hd
  decide

theorem allParse_aliceDone : allParse aliceDone := by
  intro p hp d hd
  simp only [aliceDone, List.mem_singleton] at hp
  subst hp
  simp only [List.mem_singleton] at hd
  subst hd
  decide

/-- C1, as amended: for every document whose time strings all parse and every
instant, `getPendingDrugs` returns exactly the stable filter of the document:
the people in input order, each with the items, in input order, whose time of
today is strictly before now and that are not completed, and without the
people left with no item. -/
theorem getPendingDrugs_eq_stableFilter (clock : Clock) (people : List person)
    (h : allParse people) :
    getPendingDrugs clock (some people) = .ok (stableFilter clock people) := by
  simp only [getPendingDrugs, loadDrugs, Outcome.bind_ok]
  exact pendingOf_ok clock people h

theorem getPendingDrugs_eq_stableFilter_witness :
    getPendingDrugs clockNine (some aliceDoc) = .ok (stableFilter clockNine aliceDoc) ∧
      stableFilter clockNine aliceDoc = aliceDoc :=
  ⟨getPendingDrugs_eq_stableFilter clockNine aliceDoc allParse_aliceDoc, by decide⟩

/-- C1 as stated fails: on a document with the time string "8" the call does
not return the stable filter, it panics on the missing second component. -/
theorem getPendingDrugs_noColon_panics :
    getPendingDrugs clockNine (some noColonDoc) = .panic (.indexOutOfRange 1 1) ∧
      getPendingDrugs clockNine (some noColonDoc) ≠ .ok (stableFilter clockNine noColonDoc) := by
  decide

/-- C2: whatever the order of the map, the due list computed from
`changeStatus people personName drugName true` holds no item named `drugName`
under a person named `personName`; the due list exists whenever the time
strings of the document all parse; and in the scenario (Alice, Vitamin at
08:00, read at 09:00) the due list after marking is empty. -/
theorem due_after_complete (order : MapOrder) (clock : Clock) (people : List person)
    (personName drugName : String) :
    (∃ updated, changeStatus order people personName drugName true = .ok updated ∧
      (∀ due, getPendingDrugs clock (some updated) = .ok due →
        ∀ q ∈ due, q.PersonName = personName → ∀ d ∈ q.Drugs, d.Name ≠ drugName) ∧
      (allParse people → ∃ due, getPendingDrugs clock (some updated) = .ok due)) ∧
    (∃ updated, changeStatus order aliceDoc "Alice" "Vitamin" true = .ok updated ∧
      getPendingDrugs clockNine (some updated) = .ok []) := by
  constructor
  · obtain ⟨out, hout, hnd, hnames, hview⟩ :=
      changeStatus_spec order people personName drugName true
    refine ⟨out, hout, ?_, ?_⟩
    · intro due hdue q hq hqn d hd hdn
      simp only [getPendingDrugs, loadDrugs, Outcome.bind_ok] at hdue
      have hall := allParse_of_pendingOf_ok clock out due hdue
      rw [pendingOf_ok clock out hall] at hdue
      cases hdue
      obtain ⟨p, hp, hpn, hdrugs⟩ := mem_stableFilter clock out q hq
      obtain ⟨hdp, hdue'⟩ := hdrugs d hd
      have hst := isDue_status clock d hdue'
      have hpd := lastDrugs_of_mem out p hnd hp
      rw [hview, hpn, hqn] at hpd
      simp only [if_true] at hpd
      rw [← hpd] at hdp
      simp only [changeStatusForDrug, List.mem_map] at hdp
      obtain ⟨e, _, he⟩ := hdp
      by_cases hen : e.Name = drugName
      · simp only [hen, if_true] at he
        rw [← he] at hst
        cases hst
      · simp only [hen, if_false] at he
        exact hen (he ▸ hdn)
    · intro hall
      refine ⟨_, getPendingDrugs_eq_stableFilter clock out ?_⟩
      intro q hq d hd
      have hqd := lastDrugs_of_mem out q hnd hq
      rw [hview] at hqd
      have hqn : q.PersonName ∈ names out := List.mem_map.2 ⟨q, hq, rfl⟩
      by_cases hp : q.PersonName = personName
      · simp only [hp, if_true] at hqd
        rw [← hqd] at hd
        simp only [changeStatusForDrug, List.mem_map] at hd
        obtain ⟨e, he, hed⟩ := hd
        have hpe : personName ∈ names people := by
          by_contra hcon
          rw [lastDrugs_of_not_mem people personName hcon] at he
          cases he
        obtain ⟨p', hp', _, hp'd⟩ := lastDrugs_mem people personName hpe
        rw [hp'd] at he
        have := hall p' hp' e he
        by_cases hen : e.Name = drugName
        · simp only [hen, if_true] at hed
          rw [← hed]
          exact this
        · simp only [hen, if_false] at hed
          rw [← hed]
          exact this
      · simp only [hp, if_false] at hqd
        have hpe : q.PersonName ∈ names people := by
          by_contra hcon
          rw [lastDrugs_of_not_mem people _ hcon] at hqd
          rw [← hqd] at hd
          cases hd
        obtain ⟨p', hp', _, hp'd⟩ := lastDrugs_mem people _ hpe
        rw [hp'd] at hqd
        rw [← hqd] at hd
        exact hall p' hp' d hd
  · have hperm := order.perm (changeStatusMap aliceDoc "Alice" "Vitamin" true)
    have hmap : changeStatusMap aliceDoc "Alice" "Vitamin" true =
        [("Alice", [⟨"Vitamin", "08:00", "", true⟩])] := by decide
    rw [hmap, List.perm_singleton] at hperm
    refine ⟨_, rfl, ?_⟩
    rw [hmap, hperm]
    decide

/-! ## The status mutator: claims -/

theorem changeStatusForDrug_pointwise (drugs : List drug) (drugName : String) (status : Bool) :
    List.Forall₂
      (fun d e => e.Name = d.Name ∧ e.Time = d.Time ∧ e.Comment = d.Comment ∧
        e.Status = (if d.Name = drugName then status else d.Status))
      drugs (changeStatusForDrug drugs drugName status) := by
  induction drugs with
  | nil => exact List.Forall₂.nil
  | cons d ds ih =>
    refine List.Forall₂.cons ?_ ih
    by_cases h : d.Name = drugName <;> simp [h]

/-- C4: `changeStatus` never fails, and its result is, up to the order of the
people: one entry per distinct name of the document plus `personName`, with
pairwise distinct names; the entry of `personName` holds the items of the last
person of that name (none if there is none), in the same order and number,
with the status set on exactly the items named `drugName` and name, time and
comment unchanged; every other entry holds, unchanged, the items of the last
person of its name. -/
theorem changeStatus_last_wins (order : MapOrder) (people : List person)
    (personName drugName : String) (status : Bool) :
    ∃ out, changeStatus order people personName drugName status = .ok out ∧
      (names out).Nodup ∧
      (∀ n, n ∈ names out ↔ n = personName ∨ n ∈ names people) ∧
      (∀ q ∈ out, q.PersonName = personName →
        List.Forall₂
          (fun d e => e.Name = d.Name ∧ e.Time = d.Time ∧ e.Comment = d.Comment ∧
            e.Status = (if d.Name = drugName then status else d.Status))
          (lastDrugs people personName) q.Drugs) ∧
      (∀ q ∈ out, q.PersonName ≠ personName → q.Drugs = lastDrugs people q.PersonName) := by
  obtain ⟨out, hout, hnd, hnames, hview⟩ :=
    changeStatus_spec order people personName drugName status
  refine ⟨out, hout, hnd, hnames, ?_, ?_⟩
  · intro q hq hqn
    have h := lastDrugs_of_mem out q hnd hq
    rw [hview, hqn] at h
    simp only [if_true] at h
    rw [← h]
    exact changeStatusForDrug_pointwise _ _ _
  · intro q hq hqn
    have h := lastDrugs_of_mem out q hnd hq
    rw [hview] at h
    simp only [hqn, if_false] at h
    exact h.symm

/-- C5: on a document with pairwise distinct names that has no person named
`personName`, the result of `changeStatus` holds exactly the people of the
document, each with the item list it had, and one new person named
`personName` with no items. -/
theorem changeStatus_absent_person (order : MapOrder) (people : List person)
    (personName drugName : String) (status : Bool)
    (hnd : (names people).Nodup) (habs : personName ∉ names people) :
    ∃ out, changeStatus order people personName drugName status = .ok out ∧
      out.Perm (people ++ [{ PersonName := personName, Drugs := [] }]) := by
  obtain ⟨out, hout, hnd', hnames, hview⟩ :=
    changeStatus_spec order people personName drugName status
  refine ⟨out, hout, perm_of_lastDrugs _ _ hnd' ?_ ?_ ?_⟩
  · rw [names_append]
    exact List.Nodup.append hnd (List.nodup_singleton _) (by simpa [names] using habs)
  · intro n
    rw [hnames, names_append]
    simp [names, or_comm]
  · intro n
    rw [hview, lastDrugs_append_singleton, lastDrugs_of_not_mem people personName habs]
    simp [changeStatusForDrug]

theorem changeStatus_absent_person_witness :
    ∃ out, changeStatus MapOrder.reversed aliceDoc "Bob" "Vitamin" true = .ok out ∧
      out.Perm (aliceDoc ++ [{ PersonName := "Bob", Drugs := [] }]) :=
  changeStatus_absent_person MapOrder.reversed aliceDoc "Bob" "Vitamin" true
    (by decide) (by decide)

/-! ## Time conversion: claims -/

/-- C8 as stated fails: the conversion succeeds on "25:00", on "07:99" and on
"08:00:30", none of which is a valid "HH:MM". -/
theorem convertStr2Time_accepts_invalid :
    (convertStr2Time clockNine "25:00" = .ok (clockNine.today 25 0) ∧
      validHHMM "25:00" = false) ∧
    (convertStr2Time clockNine "07:99" = .ok (clockNine.today 7 99) ∧
      validHHMM "07:99" = false) ∧
    (convertStr2Time clockNine "08:00:30" = .ok (clockNine.today 8 0) ∧
      validHHMM "08:00:30" = false) := by
  decide

/-- C8, as amended: the conversion succeeds if and only if its argument has at
least two components between colons of which the first two are integers; it
then returns the instant of today at that hour and minute, without a check of
the ranges and whatever the further components are; every valid "HH:MM" is
such a string, and on every other string the conversion panics. -/
theorem convertStr2Time_succeeds_iff (clock : Clock) (timeStr : String) :
    ((∃ t, convertStr2Time clock timeStr = .ok t) ↔
      ∃ h m rest hours minutes, splitColon timeStr.data = h :: m :: rest ∧
        Atoi h = some hours ∧ Atoi m = some minutes) ∧
    (∀ h m rest hours minutes, splitColon timeStr.data = h :: m :: rest →
      Atoi h = some hours → Atoi m = some minutes →
      convertStr2Time clock timeStr = .ok (clock.today hours minutes)) ∧
    ((¬ ∃ t, convertStr2Time clock timeStr = .ok t) →
      ∃ cause, convertStr2Time clock timeStr = .panic cause) ∧
    (validHHMM timeStr = true → ∃ t, convertStr2Time clock timeStr = .ok t) := by
  refine ⟨?_, ?_, ?_, ?_⟩
  · rw [convertStr2Time_ok_iff]
    unfold timeParses
    constructor
    · intro h
      split at h
      · rename_i a b rest hs
        simp only [Bool.and_eq_true, Option.isSome_iff_exists] at h
        obtain ⟨⟨hours, hh⟩, ⟨minutes, hm⟩⟩ := h
        exact ⟨a, b, rest, hours, minutes, hs, hh, hm⟩
      · cases h
    · rintro ⟨a, b, rest, hours, minutes, hs, hh, hm⟩
      simp [hs, hh, hm]
  · intro a b rest hours minutes hs hh hm
    simp [convertStr2Time, hs, hh, hm]
  · intro hno
    apply convertStr2Time_panic_of_not_parses
    cases hp : timeParses timeStr with
    | false => rfl
    | true => exact absurd ((convertStr2Time_ok_iff clock timeStr).2 hp) hno
  · intro hv
    rw [convertStr2Time_ok_iff]
    unfold validHHMM at hv
    unfold timeParses
    split at hv
    · rename_i a b hs
      split at hv
      · rename_i hours minutes hh hm
        simp [hs, hh, hm]
      · cases hv
    · cases hv

/-! ## The reset condition -/

theorem Outcome.mapM_ok {α β : Type} (f : α → Outcome β) (g : α → Option β) (l : List α)
    (h : ∀ a ∈ l, ∃ b, f a = .ok b ∧ g a = some b) :
    Outcome.mapM f l = .ok (l.filterMap g) := by
  induction l with
  | nil => rfl
  | cons a as ih =>
    obtain ⟨b, hb, hg⟩ := h a (List.mem_cons_self _ _)
    have ih' := ih (fun x hx => h x (List.mem_cons_of_mem _ hx))
    simp [Outcome.mapM, hb, ih', Outcome.bind, List.filterMap_cons, hg]

theorem collectTimes_ok (clock : Clock) (people : List person) (h : allParse people) :
    collectTimes clock people = .ok (allTimes clock people) := by
  unfold collectTimes
  have hin : ∀ p ∈ people, ∃ b,
      Outcome.mapM (fun d => convertStr2Time clock d.Time) p.Drugs = .ok b ∧
        (fun p : person => some (p.Drugs.filterMap (fun d => scheduledToday clock d.Time))) p =
          some b := by
    intro p hp
    refine ⟨_, Outcome.mapM_ok _ (fun d => scheduledToday clock d.Time) p.Drugs ?_, rfl⟩
    intro d hd
    exact scheduledToday_of_parses clock d.Time (h p hp d hd)
  rw [Outcome.mapM_ok _ _ people hin]
  have hmap : ∀ l : List person,
      l.filterMap (fun p => some (p.Drugs.filterMap (fun d => scheduledToday clock d.Time))) =
        l.map (fun p => p.Drugs.filterMap (fun d => scheduledToday clock d.Time)) := by
    intro l
    induction l with
    | nil => rfl
    | cons a l ih => simp [List.filterMap_cons, ih]
  simp [Outcome.bind, allTimes, List.flatMap, hmap]

theorem mem_allTimes (clock : Clock) (people : List person) (t : Int) :
    t ∈ allTimes clock people ↔
      ∃ p ∈ people, ∃ d ∈ p.Drugs, convertStr2Time clock d.Time = .ok t := by
  simp only [allTimes, List.mem_flatMap, List.mem_filterMap]
  constructor
  · rintro ⟨p, hp, d, hd, hs⟩
    refine ⟨p, hp, d, hd, ?_⟩
    unfold scheduledToday at hs
    split at hs
    · rename_i t' ht
      cases hs
      exact ht
    · cases hs
  · rintro ⟨p, hp, d, hd, hs⟩
    exact ⟨p, hp, d, hd, by simp [scheduledToday, hs]⟩

theorem foldl_min_min (us : List Int) (a b : Int) :
    us.foldl min (min a b) = min a (us.foldl min b) := by
  induction us generalizing b with
  | nil => rfl
  | cons c us ih =>
    simp only [List.foldl_cons]
    rw [min_assoc, ih]

theorem leastOf_cons (t : Int) (ts : List Int) :
    leastOf (t :: ts) = some (match leastOf ts with
      | none => t
      | some m => min t m) := by
  cases ts with
  | nil => rfl
  | cons u us => simp [leastOf, foldl_min_min]

theorem leastOf_spec (ts : List Int) (m : Int) (h : leastOf ts = some m) :
    m ∈ ts ∧ ∀ t ∈ ts, m ≤ t := by
  induction ts generalizing m with
  | nil => cases h
  | cons t ts ih =>
    rw [leastOf_cons] at h
    cases hl : leastOf ts with
    | none =>
      have hts : ts = [] := by
        cases ts with
        | nil => rfl
        | cons u us => simp [leastOf] at hl
      subst hts
      simp only [hl, Option.some.injEq] at h
      subst h
      simp
    | some m' =>
      simp only [hl, Option.some.injEq] at h
      obtain ⟨hm', hle⟩ := ih m' hl
      subst h
      constructor
      · rcases min_choice t m' with hc | hc
        · rw [hc]
          exact List.mem_cons_self _ _
        · rw [hc]
          exact List.mem_cons_of_mem _ hm'
      · intro u hu
        rcases List.mem_cons.1 hu with rfl | hmem
        · exact min_le_left _ _
        · exact le_trans (min_le_right _ _) (hle u hmem)

theorem head_orderedInsert (t : Int) (l : List Int) :
    (List.orderedInsert (fun a b => Before b a = false) t l).head? =
      some (match l.head? with
        | none => t
        | some b => min t b) := by
  cases l with
  | nil => rfl
  | cons b l =>
    simp only [List.orderedInsert, Before, decide_eq_false_iff_not, not_lt, List.head?_cons]
    by_cases h : t ≤ b
    · simp [h]
    · simp only [h, if_false, List.head?_cons]
      rw [min_eq_right (le_of_lt (not_le.1 h))]

theorem head_sortSliceStable (ts : List Int) :
    (sortSliceStable Before ts).head? = leastOf ts := by
  induction ts with
  | nil => rfl
  | cons t ts ih =>
    unfold sortSliceStable at ih ⊢
    simp only [List.insertionSort, head_orderedInsert, ih, leastOf_cons]

theorem isResetPendingStatus_ok (clock : Clock) (people : List person)
    (h : allParse people) :
    isResetPendingStatus clock people = .ok (resetDue clock people) := by
  unfold isResetPendingStatus resetDue
  rw [collectTimes_ok clock people h, Outcome.bind_ok]
  have hs := head_sortSliceStable (allTimes clock people)
  cases hl : sortSliceStable Before (allTimes clock people) with
  | nil =>
    rw [hl] at hs
    simp [← hs]
  | cons b l =>
    rw [hl] at hs
    simp [← hs, After]

theorem leastOf_isSome_of_item (clock : Clock) (people : List person) (h : allParse people)
    (hitem : ∃ p ∈ people, p.Drugs ≠ []) : ∃ m, leastOf (allTimes clock people) = some m := by
  obtain ⟨p, hp, hne⟩ := hitem
  obtain ⟨d, hd⟩ := List.exists_mem_of_ne_nil _ hne
  obtain ⟨t, ht, _⟩ := scheduledToday_of_parses clock d.Time (h p hp d hd)
  have hmem : t ∈ allTimes clock people := (mem_allTimes clock people t).2 ⟨p, hp, d, hd, ht⟩
  cases hts : allTimes clock people with
  | nil =>
    rw [hts] at hmem
    cases hmem
  | cons u us => exact ⟨_, rfl⟩

theorem allTimes_nil_of_no_item (clock : Clock) (people : List person)
    (h : ∀ p ∈ people, p.Drugs = []) : allTimes clock people = [] := by
  apply List.eq_nil_iff_forall_not_mem.2
  intro t ht
  obtain ⟨p, hp, d, hd, _⟩ := (mem_allTimes clock people t).1 ht
  rw [h p hp] at hd
  cases hd

/-- C3: on a document whose time strings all parse, `isResetPendingStatus`
returns false when the document has no items, and otherwise returns true if
and only if the minimum of the scheduled instants of today of all items of all
people is strictly after now; that minimum is the first element of the sorted
list. -/
theorem isResetPendingStatus_iff_min (clock : Clock) (people : List person)
    (h : allParse people) :
    ((∀ p ∈ people, p.Drugs = []) → isResetPendingStatus clock people = .ok false) ∧
    ((∃ p ∈ people, p.Drugs ≠ []) →
      ∃ m, leastOf (allTimes clock people) = some m ∧
        m ∈ allTimes clock people ∧ (∀ t ∈ allTimes clock people, m ≤ t) ∧
        (sortSliceStable Before (allTimes clock people)).head? = some m ∧
        isResetPendingStatus clock people = .ok (decide (clock.now < m))) ∧
    (∀ t, t ∈ allTimes clock people ↔
      ∃ p ∈ people, ∃ d ∈ p.Drugs, convertStr2Time clock d.Time = .ok t) := by
  refine ⟨?_, ?_, mem_allTimes clock people⟩
  · intro hno
    rw [isResetPendingStatus_ok clock people h]
    simp [resetDue, allTimes_nil_of_no_item clock people hno, leastOf]
  · intro hitem
    obtain ⟨m, hm⟩ := leastOf_isSome_of_item clock people h hitem
    obtain ⟨hmem, hle⟩ := leastOf_spec _ m hm
    refine ⟨m, hm, hmem, hle, ?_, ?_⟩
    · rw [head_sortSliceStable, hm]
    · rw [isResetPendingStatus_ok clock people h]
      simp [resetDue, hm]

theorem isResetPendingStatus_iff_min_witness :
    ∃ m, leastOf (allTimes clockNine aliceDoc) = some m ∧
      m ∈ allTimes clockNine aliceDoc ∧ (∀ t ∈ allTimes clockNine aliceDoc, m ≤ t) ∧
      (sortSliceStable Before (allTimes clockNine aliceDoc)).head? = some m ∧
      isResetPendingStatus clockNine aliceDoc = .ok (decide (clockNine.now < m)) :=
  (isResetPendingStatus_iff_min clockNine aliceDoc allParse_aliceDoc).2.1
    ⟨⟨"Alice", [⟨"Vitamin", "08:00", "", false⟩]⟩, by decide, by decide⟩

/-! ## The reset loop -/

theorem foldl_applyCall (calls : List (String × String)) (view : String → List drug)
    (n : String) :
    calls.foldl applyCall view n =
      (view n).map (fun d => if (n, d.Name) ∈ calls then { d with Status := false } else d) := by
  induction calls generalizing view with
  | nil => simp
  | cons c calls ih =>
    obtain ⟨cp, cd⟩ := c
    rw [List.foldl_cons, ih]
    by_cases hn : n = cp
    · subst hn
      simp only [applyCall, if_true, changeStatusForDrug, List.map_map]
      apply List.map_congr_left
      intro d _
      by_cases hd : d.Name = cd
      · subst hd
        simp
      · have hne : ¬ (n, d.Name) = (n, cd) := fun e => hd (Prod.mk.inj e).2
        simp [hd, hne]
    · simp only [applyCall, hn, if_false]
      apply List.map_congr_left
      intro d _
      have hne : ¬ (n, d.Name) = (cp, cd) := fun e => hn (Prod.mk.inj e).1
      simp [hne]

theorem resetLoop_some (orders : Nat → MapOrder) (people : List person)
    (calls : List (String × String)) (k : Nat) (u : List person)
    (hnd : (names u).Nodup) (hcalls : ∀ c ∈ calls, c.1 ∈ names u) :
    ∃ out, resetLoop orders people calls k (some u) = .ok (some out) ∧
      (names out).Nodup ∧ (∀ n, n ∈ names out ↔ n ∈ names u) ∧
      (∀ n, lastDrugs out n = calls.foldl applyCall (lastDrugs u) n) := by
  induction calls generalizing k u with
  | nil => exact ⟨u, rfl, hnd, fun _ => Iff.rfl, fun _ => rfl⟩
  | cons c calls ih =>
    obtain ⟨cp, cd⟩ := c
    obtain ⟨u', hu', hnd', hnames', hview'⟩ := changeStatus_spec (orders k) u cp cd false
    have hcp : cp ∈ names u := hcalls (cp, cd) (List.mem_cons_self _ _)
    have hsame : ∀ n, n ∈ names u' ↔ n ∈ names u := by
      intro n
      rw [hnames']
      constructor
      · rintro (rfl | h)
        · exact hcp
        · exact h
      · exact Or.inr
    obtain ⟨out, hout, hnd'', hnames'', hview''⟩ := ih (k + 1) u' hnd'
      (fun c hc => (hsame c.1).2 (hcalls c (List.mem_cons_of_mem _ hc)))
    refine ⟨out, ?_, hnd'', fun n => (hnames'' n).trans (hsame n), ?_⟩
    · simp only [resetLoop, hu', Outcome.bind_ok]
      exact hout
    · intro n
      have hfun : lastDrugs u' = applyCall (lastDrugs u) (cp, cd) := by
        funext x
        rw [hview']
        rfl
      rw [hview'', List.foldl_cons, hfun]

theorem mem_resetCalls (people : List person) (p : person) (d : drug)
    (hp : p ∈ people) (hd : d ∈ p.Drugs) : (p.PersonName, d.Name) ∈ resetCalls people := by
  simp only [resetCalls, List.mem_flatMap, List.mem_map]
  exact ⟨p, hp, d, hd, rfl⟩

theorem resetCalls_names (people : List person) (c : String × String)
    (hc : c ∈ resetCalls people) : c.1 ∈ names people := by
  simp only [resetCalls, List.mem_flatMap, List.mem_map] at hc
  obtain ⟨p, hp, d, _, rfl⟩ := hc
  exact List.mem_map.2 ⟨p, hp, rfl⟩

/-- What the reset persists, duplicate names included: one entry per name,
holding the items of the last person of that name, none of them completed. -/
theorem resetPendingStatus_spec (orders : Nat → MapOrder) (people : List person)
    (hitem : ∃ p ∈ people, p.Drugs ≠ []) :
    ∃ out, (∀ store, resetPendingStatus orders people store = .ok (saveDrugs out)) ∧
      (names out).Nodup ∧ (∀ n, n ∈ names out ↔ n ∈ names people) ∧
      (∀ n, lastDrugs out n = (lastDrugs people n).map (fun d => { d with Status := false })) := by
  obtain ⟨p0, hp0, hne0⟩ := hitem
  obtain ⟨d0, hd0⟩ := List.exists_mem_of_ne_nil _ hne0
  have hmem0 := mem_resetCalls people p0 d0 hp0 hd0
  cases hcalls : resetCalls people with
  | nil =>
    rw [hcalls] at hmem0
    cases hmem0
  | cons c calls =>
    obtain ⟨cp, cd⟩ := c
    have hcp : cp ∈ names people :=
      resetCalls_names people (cp, cd) (hcalls ▸ List.mem_cons_self _ _)
    obtain ⟨u, hu, hnd, hnames, hview⟩ := changeStatus_spec (orders 0) people cp cd false
    have hsame : ∀ n, n ∈ names u ↔ n ∈ names people := by
      intro n
      rw [hnames]
      constructor
      · rintro (rfl | h)
        · exact hcp
        · exact h
      · exact Or.inr
    obtain ⟨out, hout, hnd', hnames', hview'⟩ := resetLoop_some orders people calls 1 u hnd
      (fun c hc => (hsame c.1).2
        (resetCalls_names people c (hcalls ▸ List.mem_cons_of_mem _ hc)))
    refine ⟨out, ?_, hnd', fun n => (hnames' n).trans (hsame n), ?_⟩
    · intro store
      simp only [resetPendingStatus, hcalls, resetLoop, hu, Outcome.bind_ok]
      rw [show (0 : Nat) + 1 = 1 from rfl, hout]
      rfl
    · intro n
      have hfun : lastDrugs u = applyCall (lastDrugs people) (cp, cd) := by
        funext x
        rw [hview]
        rfl
      rw [hview', hfun, ← List.foldl_cons, ← hcalls, foldl_applyCall]
      apply List.map_congr_left
      intro d hd
      have hn : n ∈ names people := by
        by_contra hcon
        rw [lastDrugs_of_not_mem people n hcon] at hd
        cases hd
      obtain ⟨q, hq, hqn, hqd⟩ := lastDrugs_mem people n hn
      rw [hqd] at hd
      have := mem_resetCalls people q d hq hd
      rw [hqn] at this
      simp [this]

theorem resetPendingStatus_items (orders : Nat → MapOrder) (people : List person)
    (hitem : ∃ p ∈ people, p.Drugs ≠ []) :
    ∃ out, (∀ store, resetPendingStatus orders people store = .ok (saveDrugs out)) ∧
      (names out).Nodup ∧ (∀ n, n ∈ names out ↔ n ∈ names people) ∧
      (∀ n, lastDrugs out n = (lastDrugs people n).map (fun d => { d with Status := false })) ∧
      (∀ q ∈ out, ∀ d ∈ q.Drugs, d.Status = false ∧
        ∃ p ∈ people, ∃ e ∈ p.Drugs, d.Time = e.Time) := by
  obtain ⟨out, hout, hnd, hnames, hview⟩ := resetPendingStatus_spec orders people hitem
  refine ⟨out, hout, hnd, hnames, hview, ?_⟩
  intro q hq d hd
  have hqd := lastDrugs_of_mem out q hnd hq
  rw [hview] at hqd
  rw [← hqd] at hd
  obtain ⟨e, he, rfl⟩ := List.mem_map.1 hd
  refine ⟨rfl, ?_⟩
  have hn : q.PersonName ∈ names people := by
    by_contra hcon
    rw [lastDrugs_of_not_mem people _ hcon] at he
    cases he
  obtain ⟨p, hp, _, hpd⟩ := lastDrugs_mem people _ hn
  rw [hpd] at he
  exact ⟨p, hp, e, he, rfl⟩

/-- C6: on a document with pairwise distinct names and at least one item, the
reset persists a document that has, up to the order of the people, the same
people with the same items in the same order, with the same name, time and
comment, and none of them completed; it is the document the fetch-due check
persists whenever the reset condition holds. -/
theorem resetPendingStatus_clears_all (orders : Nat → MapOrder) (people : List person)
    (store : Store) (hnd : (names people).Nodup) (hitem : ∃ p ∈ people, p.Drugs ≠ []) :
    ∃ out, resetPendingStatus orders people store = .ok (saveDrugs out) ∧
      out.Perm (people.map clearPerson) ∧
      (∀ clock, isResetPendingStatus clock people = .ok true →
        checkAndResetPendingStatus orders clock (some people) = .ok (some out)) := by
  obtain ⟨out, hout, hnd', hnames, hview⟩ := resetPendingStatus_spec orders people hitem
  refine ⟨out, hout store, ?_, ?_⟩
  · apply perm_of_lastDrugs _ _ hnd'
    · rw [names_map_clearPerson]
      exact hnd
    · intro n
      rw [names_map_clearPerson, hnames]
    · intro n
      rw [hview, lastDrugs_map_clearPerson]
  · intro clock hreset
    simp only [checkAndResetPendingStatus, loadDrugs, Outcome.bind_ok, hreset, if_true]
    exact hout (some people)

theorem resetPendingStatus_clears_all_witness :
    ∃ out, resetPendingStatus insertionOrders aliceDone none = .ok (saveDrugs out) ∧
      out.Perm (aliceDone.map clearPerson) ∧
      (∀ clock, isResetPendingStatus clock aliceDone = .ok true →
        checkAndResetPendingStatus insertionOrders clock (some aliceDone) = .ok (some out)) :=
  resetPendingStatus_clears_all insertionOrders aliceDone none (by decide)
    ⟨⟨"Alice", [⟨"Vitamin", "08:00", "", true⟩]⟩, by decide, by decide⟩

/-! ## The fetch-due request -/

theorem item_of_resetDue (clock : Clock) (people : List person)
    (h : resetDue clock people = true) : ∃ p ∈ people, p.Drugs ≠ [] := by
  unfold resetDue at h
  cases hl : leastOf (allTimes clock people) with
  | none =>
    rw [hl] at h
    cases h
  | some m =>
    obtain ⟨hm, _⟩ := leastOf_spec _ m hl
    obtain ⟨p, hp, d, hd, _⟩ := (mem_allTimes clock people m).1 hm
    exact ⟨p, hp, List.ne_nil_of_mem hd⟩

theorem after_now_of_resetDue (clock : Clock) (people : List person)
    (h : resetDue clock people = true) : ∀ t ∈ allTimes clock people, clock.now < t := by
  unfold resetDue at h
  cases hl : leastOf (allTimes clock people) with
  | none =>
    rw [hl] at h
    cases h
  | some m =>
    rw [hl] at h
    obtain ⟨_, hle⟩ := leastOf_spec _ m hl
    intro t ht
    exact lt_of_lt_of_le (by simpa using h) (hle t ht)

theorem isDue_false_of_time (clock : Clock) (people : List person) (d e : drug) (p : person)
    (h : resetDue clock people = true) (hp : p ∈ people) (he : e ∈ p.Drugs)
    (ht : d.Time = e.Time) : isDue clock d = false := by
  unfold isDue
  rw [ht]
  cases hs : scheduledToday clock e.Time with
  | none => rfl
  | some t =>
    have hok : convertStr2Time clock e.Time = .ok t := by
      unfold scheduledToday at hs
      split at hs
      · rename_i t' ht'
        cases hs
        exact ht'
      · cases hs
    have := after_now_of_resetDue clock people h t
      ((mem_allTimes clock people t).2 ⟨p, hp, e, he, hok⟩)
    simp [not_lt.2 (le_of_lt this)]

theorem stableFilter_eq_nil (clock : Clock) (people : List person)
    (h : ∀ p ∈ people, ∀ d ∈ p.Drugs, isDue clock d = false) :
    stableFilter clock people = [] := by
  unfold stableFilter
  rw [List.filter_eq_nil_iff]
  intro q hq
  obtain ⟨p, hp, rfl⟩ := List.mem_map.1 hq
  have : p.Drugs.filter (isDue clock) = [] := by
    rw [List.filter_eq_nil_iff]
    intro d hd
    simp [h p hp d hd]
  simp [this]

theorem allParse_of_times (people out : List person) (h : allParse people)
    (hout : ∀ q ∈ out, ∀ d ∈ q.Drugs, d.Status = false ∧
      ∃ p ∈ people, ∃ e ∈ p.Drugs, d.Time = e.Time) : allParse out := by
  intro q hq d hd
  obtain ⟨_, p, hp, e, he, hde⟩ := hout q hq d hd
  rw [hde]
  exact h p hp e he

/-- The fetch-due request on a readable document whose time strings all
parse: what it answers and what it leaves in the store. -/
theorem getDrugsHandler_spec (orders : Nat → MapOrder) (checkClock pendingClock : Clock)
    (people : List person) (h : allParse people) :
    (resetDue checkClock people = false →
      getDrugsHandler orders checkClock pendingClock (some people) =
        (.ok (stableFilter pendingClock people), some people)) ∧
    (resetDue checkClock people = true →
      ∃ out, getDrugsHandler orders checkClock pendingClock (some people) =
          (.ok (stableFilter pendingClock out), some out) ∧
        (∀ store, resetPendingStatus orders people store = .ok (some out)) ∧
        (names out).Nodup ∧ (∀ n, n ∈ names out ↔ n ∈ names people) ∧
        (∀ n, lastDrugs out n =
          (lastDrugs people n).map (fun d => { d with Status := false })) ∧
        (∀ q ∈ out, ∀ d ∈ q.Drugs, d.Status = false ∧
          ∃ p ∈ people, ∃ e ∈ p.Drugs, d.Time = e.Time)) := by
  have hreset := isResetPendingStatus_ok checkClock people h
  constructor
  · intro hno
    simp only [getDrugsHandler, checkAndResetPendingStatus, loadDrugs, Outcome.bind_ok, hreset,
      hno, Bool.false_eq_true, if_false, getPendingDrugs]
    rw [pendingOf_ok pendingClock people h]
  · intro hyes
    obtain ⟨out, hout, hnd, hnames, hview, hitems⟩ :=
      resetPendingStatus_items orders people (item_of_resetDue checkClock people hyes)
    have hparse : allParse out := allParse_of_times people out h hitems
    refine ⟨out, ?_, hout, hnd, hnames, hview, hitems⟩
    simp only [getDrugsHandler, checkAndResetPendingStatus, loadDrugs, Outcome.bind_ok, hreset,
      hyes, if_true, hout (some people), saveDrugs, getPendingDrugs]
    rw [pendingOf_ok pendingClock out hparse]

/-- Nothing is due, at a reading of the clock at which the reset condition
holds, in a document whose items carry time strings of `people`. -/
theorem stableFilter_nil_of_resetDue (clock : Clock) (people out : List person)
    (hr : resetDue clock people = true)
    (hitems : ∀ q ∈ out, ∀ d ∈ q.Drugs, d.Status = false ∧
      ∃ p ∈ people, ∃ e ∈ p.Drugs, d.Time = e.Time) :
    stableFilter clock out = [] := by
  apply stableFilter_eq_nil
  intro q hq d hd
  obtain ⟨_, p, hp, e, he, hde⟩ := hitems q hq d hd
  exact isDue_false_of_time clock people d e p hr hp he hde

/-- C9 as stated fails: on one calendar day, a fetch at 06:00 leaves the
document as it is, the vitamin is marked completed, and the fetch at 07:00
clears the mark again; and a fetch at 09:00, were it the first of the day,
leaves a completed mark in place. -/
theorem reset_not_once_per_day :
    calendarDay 1704078000 10800 = calendarDay 1704081600 10800 ∧
    (getDrugsHandler insertionOrders clockSix clockSix (some aliceDoc)).2 = some aliceDoc ∧
    (changeDrugStatusHandler MapOrder.insertion "Alice" "Vitamin" (some aliceDoc)).2 =
      some aliceDone ∧
    (getDrugsHandler insertionOrders clockSeven clockSeven (some aliceDone)).2 =
      some aliceDoc ∧
    (getDrugsHandler insertionOrders clockNine clockNine (some aliceDone)).2 =
      some aliceDone := by
  decide

/-- C9, as amended: on a document whose time strings all parse, a fetch-due
request clears the completed flags exactly when the document has an item and
the minimum of the scheduled instants of today is strictly after now, which
`isResetPendingStatus` decides at every request; it then persists one entry
per name with the items of the last person of that name, none of them
completed, and otherwise it leaves the document as it is. The clock meant is
the reading of the reset check; the later reading of the filter plays no part. -/
theorem getDrugsHandler_resets_iff (orders : Nat → MapOrder) (clock pendingClock : Clock)
    (people : List person) (h : allParse people) :
    isResetPendingStatus clock people = .ok (resetDue clock people) ∧
    (resetDue clock people = false →
      (getDrugsHandler orders clock pendingClock (some people)).2 = some people) ∧
    (resetDue clock people = true →
      ∃ out, (getDrugsHandler orders clock pendingClock (some people)).2 = some out ∧
        (names out).Nodup ∧ (∀ n, n ∈ names out ↔ n ∈ names people) ∧
        (∀ n, lastDrugs out n =
          (lastDrugs people n).map (fun d => { d with Status := false })) ∧
        (∀ q ∈ out, ∀ d ∈ q.Drugs, d.Status = false)) := by
  obtain ⟨hno, hyes⟩ := getDrugsHandler_spec orders clock pendingClock people h
  refine ⟨isResetPendingStatus_ok clock people h, ?_, ?_⟩
  · intro hr
    rw [hno hr]
  · intro hr
    obtain ⟨out, hout, _, hnd, hnames, hview, hitems⟩ := hyes hr
    exact ⟨out, by rw [hout], hnd, hnames, hview, fun q hq d hd => (hitems q hq d hd).1⟩

theorem getDrugsHandler_resets_iff_witness :
    ∃ out, (getDrugsHandler insertionOrders clockSeven clockNine (some aliceDone)).2 =
        some out ∧
      (names out).Nodup ∧ (∀ n, n ∈ names out ↔ n ∈ names aliceDone) ∧
      (∀ n, lastDrugs out n =
        (lastDrugs aliceDone n).map (fun d => { d with Status := false })) ∧
      (∀ q ∈ out, ∀ d ∈ q.Drugs, d.Status = false) :=
  (getDrugsHandler_resets_iff insertionOrders clockSeven clockNine aliceDone
    allParse_aliceDone).2.2 (by decide)

/-- C10 as stated fails: a fetch-due request on Alice's document with the
vitamin completed, whose reset check reads the clock at 07:59:59 and whose
filter reads it at 08:00:01, triggers the reset and answers with Alice's
vitamin, not with the empty list. -/
theorem reset_then_due :
    isResetPendingStatus clockBeforeEight aliceDone = .ok true ∧
    getDrugsHandler insertionOrders clockBeforeEight clockAfterEight (some aliceDone) =
      (.ok aliceDoc, some aliceDoc) := by
  decide

/-- C10, as amended: on a document whose time strings all parse, whenever
`isResetPendingStatus` returns true at an instant, the due list computed at
the same instant is empty, on the document itself and on the document the
reset persists; and a fetch-due request that triggers the reset answers with
the empty list whenever its filter reads the clock at an instant at which
`isResetPendingStatus` is still true, as at the instant of the check itself. -/
theorem due_empty_when_reset (orders : Nat → MapOrder) (clock pendingClock : Clock)
    (people : List person)
    (h : allParse people) (hreset : isResetPendingStatus clock people = .ok true) :
    getPendingDrugs clock (some people) = .ok [] ∧
    ∃ out, checkAndResetPendingStatus orders clock (some people) = .ok (some out) ∧
      (∀ store, resetPendingStatus orders people store = .ok (saveDrugs out)) ∧
      getPendingDrugs clock (some out) = .ok [] ∧
      getDrugsHandler orders clock clock (some people) = (.ok [], some out) ∧
      (isResetPendingStatus pendingClock people = .ok true →
        getPendingDrugs pendingClock (some out) = .ok [] ∧
        getDrugsHandler orders clock pendingClock (some people) = (.ok [], some out)) := by
  have hr : resetDue clock people = true := by
    rw [isResetPendingStatus_ok clock people h] at hreset
    exact Outcome.ok.inj hreset
  constructor
  · simp only [getPendingDrugs, loadDrugs, Outcome.bind_ok]
    rw [pendingOf_ok clock people h, stableFilter_eq_nil]
    intro p hp d hd
    exact isDue_false_of_time clock people d d p hr hp hd rfl
  · obtain ⟨out, hout, hsave, _, _, _, hitems⟩ :=
      (getDrugsHandler_spec orders clock pendingClock people h).2 hr
    have hparse : allParse out := allParse_of_times people out h hitems
    have hdue : ∀ c : Clock, resetDue c people = true →
        getPendingDrugs c (some out) = .ok [] := by
      intro c hc
      simp only [getPendingDrugs, loadDrugs, Outcome.bind_ok]
      rw [pendingOf_ok c out hparse, stableFilter_nil_of_resetDue c people out hc hitems]
    refine ⟨out, ?_, hsave, hdue clock hr, ?_, ?_⟩
    · simp only [checkAndResetPendingStatus, loadDrugs, Outcome.bind_ok, hreset, if_true]
      exact hsave (some people)
    · obtain ⟨out', hout', hsave', _⟩ :=
        (getDrugsHandler_spec orders clock clock people h).2 hr
      have heq : out' = out := by
        have h1 := hsave none
        rw [hsave' none] at h1
        exact Option.some.inj (Outcome.ok.inj h1)
      subst heq
      rw [hout', stableFilter_nil_of_resetDue clock people out' hr hitems]
    · intro hreset'
      have hr' : resetDue pendingClock people = true := by
        rw [isResetPendingStatus_ok pendingClock people h] at hreset'
        exact Outcome.ok.inj hreset'
      refine ⟨hdue pendingClock hr', ?_⟩
      rw [hout, stableFilter_nil_of_resetDue pendingClock people out hr' hitems]

theorem due_empty_when_reset_witness :
    getPendingDrugs clockSix (some aliceDone) = .ok [] ∧
    ∃ out, checkAndResetPendingStatus insertionOrders clockSix (some aliceDone) =
        .ok (some out) ∧
      (∀ store, resetPendingStatus insertionOrders aliceDone store = .ok (saveDrugs out)) ∧
      getPendingDrugs clockSix (some out) = .ok [] ∧
      getDrugsHandler insertionOrders clockSix clockSix (some aliceDone) = (.ok [], some out) ∧
      (isResetPendingStatus clockSeven aliceDone = .ok true →
        getPendingDrugs clockSeven (some out) = .ok [] ∧
        getDrugsHandler insertionOrders clockSix clockSeven (some aliceDone) =
          (.ok [], some out)) :=
  due_empty_when_reset insertionOrders clockSix clockSeven aliceDone allParse_aliceDone
    (by decide)

/-! ## Malformed time strings -/

theorem Outcome.mapM_panic {α β : Type} (P : PanicCause → Prop) (f : α → Outcome β)
    (l : List α)
    (hall : ∀ a ∈ l, (∃ b, f a = .ok b) ∨ ∃ c, P c ∧ f a = .panic c)
    (hex : ∃ a ∈ l, ∃ c, f a = .panic c) :
    ∃ c, P c ∧ Outcome.mapM f l = .panic c := by
  induction l with
  | nil =>
    obtain ⟨a, ha, _⟩ := hex
    cases ha
  | cons a as ih =>
    rcases hall a (List.mem_cons_self _ _) with ⟨b, hb⟩ | ⟨c, hc, hf⟩
    · obtain ⟨x, hx, c, hxc⟩ := hex
      rcases List.mem_cons.1 hx with rfl | hmem
      · rw [hb] at hxc
        cases hxc
      · obtain ⟨c', hc', hm⟩ := ih (fun y hy => hall y (List.mem_cons_of_mem _ hy))
          ⟨x, hmem, c, hxc⟩
        exact ⟨c', hc', by simp [Outcome.mapM, hb, hm, Outcome.bind]⟩
    · exact ⟨c, hc, by simp [Outcome.mapM, hf, Outcome.bind]⟩

theorem convertStr2Time_atoi_of_colon (clock : Clock) (timeStr : String)
    (hcolon : 2 ≤ (splitColon timeStr.data).length) (h : timeParses timeStr = false) :
    ∃ bad, convertStr2Time clock timeStr = .panic (.atoi bad) := by
  rcases convertStr2Time_cases clock timeStr with
    ⟨a, m, rest, hours, minutes, hs, hh, hm, hc⟩ | ⟨a, m, rest, hs, hbad, bad, hc⟩ |
    ⟨a, hs, cause, hc⟩
  · simp [timeParses, hs, hh, hm] at h
  · exact ⟨bad, hc⟩
  · rw [hs] at hcolon
    simp at hcolon

theorem collectTimes_panic_atoi (clock : Clock) (people : List person)
    (hcolon : allHaveColon people)
    (hbad : ∃ p ∈ people, ∃ d ∈ p.Drugs, timeParses d.Time = false) :
    ∃ bad, collectTimes clock people = .panic (.atoi bad) := by
  have hinner : ∀ p ∈ people,
      (∃ b, Outcome.mapM (fun d => convertStr2Time clock d.Time) p.Drugs = .ok b) ∨
      ∃ c, (∃ bad, c = PanicCause.atoi bad) ∧
        Outcome.mapM (fun d => convertStr2Time clock d.Time) p.Drugs = .panic c := by
    intro p hp
    by_cases hall : ∀ d ∈ p.Drugs, timeParses d.Time = true
    · left
      exact ⟨_, Outcome.mapM_ok _ (fun d => scheduledToday clock d.Time) p.Drugs
        (fun d hd => scheduledToday_of_parses clock d.Time (hall d hd))⟩
    · right
      apply Outcome.mapM_panic
      · intro d hd
        cases hdp : timeParses d.Time with
        | true =>
          left
          obtain ⟨t, ht, _⟩ := scheduledToday_of_parses clock d.Time hdp
          exact ⟨t, ht⟩
        | false =>
          right
          obtain ⟨bad, hb⟩ := convertStr2Time_atoi_of_colon clock d.Time (hcolon p hp d hd) hdp
          exact ⟨_, ⟨bad, rfl⟩, hb⟩
      · by_contra hcon
        apply hall
        intro d hd
        cases hdp : timeParses d.Time with
        | true => rfl
        | false =>
          obtain ⟨c, hc⟩ := convertStr2Time_panic_of_not_parses clock d.Time hdp
          exact absurd ⟨d, hd, c, hc⟩ hcon
  have houter : ∃ c, (∃ bad, c = PanicCause.atoi bad) ∧
      Outcome.mapM (fun p => Outcome.mapM (fun d => convertStr2Time clock d.Time) p.Drugs)
        people = .panic c := by
    apply Outcome.mapM_panic _ _ _ hinner
    obtain ⟨p, hp, d, hd, hdp⟩ := hbad
    rcases hinner p hp with ⟨b, hb⟩ | ⟨c, _, hc⟩
    · exfalso
      have hall : ∀ e ∈ p.Drugs, timeParses e.Time = true := by
        by_contra hcon
        have hex : ∃ e ∈ p.Drugs, ∃ c,
            (fun d : drug => convertStr2Time clock d.Time) e = .panic c := by
          by_contra hno
          apply hcon
          intro e he
          cases hep : timeParses e.Time with
          | true => rfl
          | false =>
            obtain ⟨c, hc⟩ := convertStr2Time_panic_of_not_parses clock e.Time hep
            exact absurd ⟨e, he, c, hc⟩ hno
        obtain ⟨c, _, hc⟩ := Outcome.mapM_panic (fun _ => True)
          (fun d : drug => convertStr2Time clock d.Time) p.Drugs
          (fun e he => by
            cases hep : timeParses e.Time with
            | true =>
              left
              obtain ⟨t, ht, _⟩ := scheduledToday_of_parses clock e.Time hep
              exact ⟨t, ht⟩
            | false =>
              right
              obtain ⟨c, hc⟩ := convertStr2Time_panic_of_not_parses clock e.Time hep
              exact ⟨c, trivial, hc⟩) hex
        rw [hb] at hc
        cases hc
      rw [hall d hd] at hdp
      cases hdp
    · exact ⟨p, hp, c, hc⟩
  obtain ⟨c, ⟨bad, rfl⟩, hc⟩ := houter
  exact ⟨bad, by simp [collectTimes, hc, Outcome.bind]⟩

/-- C7 as stated fails: on a document with the time string "ab:cd" the
fetch-due request does not end in an error result, it ends in the panic the
time conversion raises on the `Atoi` error. -/
theorem getDrugsHandler_lettersDoc_panics :
    getDrugsHandler insertionOrders clockNine clockNine (some lettersDoc) =
      (.panic (.atoi "ab"), some lettersDoc) ∧
    ∀ msg, (getDrugsHandler insertionOrders clockNine clockNine (some lettersDoc)).1 ≠
      .error msg := by
  have h : getDrugsHandler insertionOrders clockNine clockNine (some lettersDoc) =
      (.panic (.atoi "ab"), some lettersDoc) := by decide
  refine ⟨h, ?_⟩
  intro msg hmsg
  rw [h] at hmsg
  cases hmsg

/-- C7, as amended: on every document in which every time string has a second
component and some time string has a first or second component that is not an
integer (such as "ab:cd"), the fetch-due request ends in the panic the time
conversion raises on the `Atoi` error, not in an error result, and the store
is left as it was. -/
theorem getDrugsHandler_panics_on_non_integer (orders : Nat → MapOrder)
    (clock pendingClock : Clock)
    (people : List person) (hcolon : allHaveColon people)
    (hbad : ∃ p ∈ people, ∃ d ∈ p.Drugs, timeParses d.Time = false) :
    ∃ bad, getDrugsHandler orders clock pendingClock (some people) =
      (.panic (.atoi bad), some people) := by
  obtain ⟨bad, hc⟩ := collectTimes_panic_atoi clock people hcolon hbad
  exact ⟨bad, by
    simp [getDrugsHandler, checkAndResetPendingStatus, loadDrugs, isResetPendingStatus, hc,
      Outcome.bind]⟩

theorem getDrugsHandler_panics_on_non_integer_witness :
    ∃ bad, getDrugsHandler insertionOrders clockNine clockNine (some lettersDoc) =
      (.panic (.atoi bad), some lettersDoc) :=
  getDrugsHandler_panics_on_non_integer insertionOrders clockNine clockNine lettersDoc
    (by
      intro p hp d hd
      simp only [lettersDoc, List.mem_singleton] at hp
      subst hp
      simp only [List.mem_singleton] at hd
      subst hd
      decide)
    ⟨⟨"Alice", [⟨"Vitamin", "ab:cd", "", false⟩]⟩, by decide,
      ⟨"Vitamin", "ab:cd", "", false⟩, by decide, by decide⟩

end DrugsTracking
